import Mathlib

/-!
Shallow embedding of `src/session_count.py`: an event-merge-and-sweep program
that converts paired (start, end) session records into a sorted event stream
and sweeps it, maintaining a running session total and a per-user count of
open sessions.

Modelling conventions:
* Python `datetime` values are records of their calendar fields; Python
  compares datetimes field-lexicographically, which we mirror with a `Lex`
  product key.
* Python dicts keyed by strings are association lists in insertion order
  (`dictGet`/`dictSet`/`dictDel` reproduce `d[k]`, `d[k] = v`, `del d[k]`);
  the read-only user directory is abstracted as its lookup function.
* `datetime.fromisoformat` (standard library, not repository code) is a
  parameter `fromisoformat : String → Option DateTime`, `none` meaning the
  Python call raises.
* Fatal Python exceptions (KeyError, ValueError from parsing, IndexError)
  become `Except PyError` results.
-/

namespace SessionCount

/-- Calendar fields of a Python naive `datetime`. -/
structure DateTime where
  year : Nat
  month : Nat
  day : Nat
  hour : Nat
  minute : Nat
  second : Nat
  microsecond : Nat
deriving DecidableEq, Repr

/-- Python compares naive datetimes field-lexicographically, in this
field order. -/
def dtCmp : DateTime → DateTime → Ordering :=
  compareLex (compareOn DateTime.year) <|
  compareLex (compareOn DateTime.month) <|
  compareLex (compareOn DateTime.day) <|
  compareLex (compareOn DateTime.hour) <|
  compareLex (compareOn DateTime.minute) <|
  compareLex (compareOn DateTime.second) (compareOn DateTime.microsecond)

/-- Python compares strings lexicographically by Unicode code point. -/
def charsCmp : List Char → List Char → Ordering
  | [], [] => .eq
  | [], _ :: _ => .lt
  | _ :: _, [] => .gt
  | a :: as, b :: bs => (compare a.toNat b.toNat).then (charsCmp as bs)

def strCmp (a b : String) : Ordering := charsCmp a.data b.data

/-- An event tuple `(timestamp, delta, display_name)` as built by
`get_event_list`. -/
abbrev Event := DateTime × Int × String

/-- Python tuple comparison on events: lexicographic on
(timestamp, delta, display_name). -/
def eventCmp : Event → Event → Ordering :=
  compareLex (fun a b => dtCmp a.1 b.1) <|
  compareLex (fun a b => compare a.2.1 b.2.1) (fun a b => strCmp a.2.2 b.2.2)

/-- The (non-strict) order on event tuples used by Python `sorted`. -/
def eventLEP (a b : Event) : Prop := eventCmp a b ≠ Ordering.gt

instance : DecidableRel eventLEP := fun a b =>
  inferInstanceAs (Decidable (eventCmp a b ≠ Ordering.gt))

/-- The order on strings used by Python `sorted` in the user rendering. -/
def strLEP (a b : String) : Prop := strCmp a b ≠ Ordering.gt

instance : DecidableRel strLEP := fun a b =>
  inferInstanceAs (Decidable (strCmp a b ≠ Ordering.gt))

/-- Exceptions the modelled fragment can raise. -/
inductive PyError where
  | keyError (key : String)
  | parseError
  | indexError
deriving DecidableEq, Repr

/-- The fixed schema list `CSV_HEADERS` from the source. -/
def CSV_HEADERS : List String :=
  ["start_timestamp", "end_timestamp", "user_id", "environment_id", "object_id"]

/-- Python dict lookup (`d.get(k)` or subscripting) in an insertion-ordered
string-keyed dict
modelled as an association list (keys are kept unique by construction). -/
def dictGet {α : Type} : List (String × α) → String → Option α
  | [], _ => none
  | p :: rest, k => if p.1 = k then some p.2 else dictGet rest k

/-- Python dict assignment of v to key k: overwrite in place if the key is
present, else append
(Python dicts preserve insertion order). -/
def dictSet {α : Type} : List (String × α) → String → α → List (String × α)
  | [], k, v => [(k, v)]
  | p :: rest, k, v => if p.1 = k then (k, v) :: rest else p :: dictSet rest k v

/-- Python dict deletion of key k, on a dict with unique keys. -/
def dictDel {α : Type} : List (String × α) → String → List (String × α)
  | [], _ => []
  | p :: rest, k => if p.1 = k then rest else p :: dictDel rest k

/-- Offset stripping: splitting on the plus sign and keeping element 0 yields
the text before the first plus, or all of the string if it has none. -/
def stripOffset (s : String) : String :=
  String.mk (s.data.takeWhile (fun c => c ≠ '+'))

/-- The row dict `dict(zip(CSV_HEADERS, row_list))`: positional zip of the fixed schema
onto the row's fields (a short row simply lacks the trailing keys). -/
def row_dict (row_list : List String) : List (String × String) :=
  CSV_HEADERS.zip row_list

/-- The body of the `for row_list in session_reader` loop of
`get_event_list`: build the row dict, parse the two timestamps (stripping a
`+offset` suffix), drop the record if either year is below 2022, resolve the
user id through the directory with fallback to the raw id, and emit the
start (+1) and end (-1) events.  A missing accessed key is a `KeyError`; a
failed parse is fatal. -/
def processRow (fromisoformat : String → Option DateTime)
    (user_dict : String → Option String) (row_list : List String) :
    Except PyError (List Event) :=
  let rd := row_dict row_list
  match dictGet rd "start_timestamp" with
  | none => .error (.keyError "start_timestamp")
  | some startRaw =>
    match fromisoformat (stripOffset startRaw) with
    | none => .error .parseError
    | some start_timestamp =>
      match dictGet rd "end_timestamp" with
      | none => .error (.keyError "end_timestamp")
      | some endRaw =>
        match fromisoformat (stripOffset endRaw) with
        | none => .error .parseError
        | some end_timestamp =>
          if start_timestamp.year < 2022 ∨ end_timestamp.year < 2022 then
            .ok []
          else
            match dictGet rd "user_id" with
            | none => .error (.keyError "user_id")
            | some uid =>
              let user_name := (user_dict uid).getD uid
              .ok [(start_timestamp, 1, user_name), (end_timestamp, -1, user_name)]

/-- The whole reader loop: process the rows in order, concatenating the
emitted events; the first exception aborts the run. -/
def build_events (fromisoformat : String → Option DateTime)
    (user_dict : String → Option String) :
    List (List String) → Except PyError (List Event)
  | [] => .ok []
  | row :: rest =>
    match processRow fromisoformat user_dict row with
    | .error e => .error e
    | .ok evs =>
      match build_events fromisoformat user_dict rest with
      | .error e => .error e
      | .ok evs' => .ok (evs ++ evs')

/-- The builder `get_event_list`: read all rows, then `sorted(event_list)`.  Python's
`sorted` is the stable sort with respect to tuple comparison, modelled here
by the stable `List.insertionSort`; the comparison `eventLEP` is moreover
antisymmetric, so every sort algorithm agrees with it. -/
def get_event_list (fromisoformat : String → Option DateTime)
    (user_dict : String → Option String) (rows : List (List String)) :
    Except PyError (List Event) :=
  match build_events fromisoformat user_dict rows with
  | .error e => .error e
  | .ok event_list => .ok (event_list.insertionSort eventLEP)

/-- A record is valid when its two timestamp fields are present, parse, and
both years are at least 2022 (the `continue` filter not taken). -/
def rowIsValid (fromisoformat : String → Option DateTime)
    (row_list : List String) : Bool :=
  match dictGet (row_dict row_list) "start_timestamp" with
  | none => false
  | some s =>
    match fromisoformat (stripOffset s) with
    | none => false
    | some sd =>
      match dictGet (row_dict row_list) "end_timestamp" with
      | none => false
      | some e =>
        match fromisoformat (stripOffset e) with
        | none => false
        | some ed => !(decide (sd.year < 2022) || decide (ed.year < 2022))

/-- One output CSV row `(timestamp, session_count, rendered user string)`. -/
abbrev OutputRow := DateTime × Int × String

/-- The sweep's mutable state across the loop of
`write_session_count_csv_file`. -/
structure SweepState where
  session_count : Int
  max_session_count : Int
  current_users : List (String × Int)
deriving DecidableEq, Repr

def initState : SweepState :=
  { session_count := 0, max_session_count := 0, current_users := [] }

/-- Rendering of the active-user snapshot: the space-joined, ascending-sorted
list of name=count tokens. -/
def renderUsers (current_users : List (String × Int)) : String :=
  String.intercalate " "
    ((current_users.map (fun p => p.1 ++ "=" ++ toString p.2)).insertionSort strLEP)

/-- One iteration of the sweep loop: add the delta to the running total; on a
start event increment the user's open-session count (creating it at 1); on an
end event decrement it — a missing key is a fatal `KeyError` — and delete the
entry when it reaches 0; render the user snapshot, emit the output row, and
track the maximum. -/
def sweepStep (st : SweepState) (event : Event) :
    Except PyError (SweepState × OutputRow) :=
  let timestamp := event.1
  let session_count := st.session_count + event.2.1
  let cu1 := if event.2.1 = 1
    then dictSet st.current_users event.2.2
      ((dictGet st.current_users event.2.2).getD 0 + 1)
    else st.current_users
  let finish := fun (cu : List (String × Int)) =>
    ({ session_count := session_count,
       max_session_count := max st.max_session_count session_count,
       current_users := cu },
     (timestamp, session_count, renderUsers cu))
  if event.2.1 = -1 then
    match dictGet cu1 event.2.2 with
    | none => .error (.keyError event.2.2)
    | some v =>
      let cu2 := dictSet cu1 event.2.2 (v - 1)
      .ok (finish (if v - 1 = 0 then dictDel cu2 event.2.2 else cu2))
  else
    .ok (finish cu1)

/-- The sweep loop over the event list, threading the state and collecting
the emitted rows in order. -/
def sweepAux (st : SweepState) :
    List Event → Except PyError (SweepState × List OutputRow)
  | [] => .ok (st, [])
  | e :: rest =>
    match sweepStep st e with
    | .error err => .error err
    | .ok (st2, row) =>
      match sweepAux st2 rest with
      | .error err => .error err
      | .ok (stf, rows) => .ok (stf, row :: rows)

/-- The writer `write_session_count_csv_file`: run the sweep from the initial state
(writing one CSV row per event), then print the summary line, which indexes
`event_list[0]` and `event_list[-1]` — an `IndexError` when the list is
empty.  The result models (CSV data rows, peak count, first and last event
timestamps). -/
def write_session_count_csv_file (event_list : List Event) :
    Except PyError (List OutputRow × Int × DateTime × DateTime) :=
  match sweepAux initState event_list with
  | .error err => .error err
  | .ok (st, rows) =>
    match event_list.head?, event_list.getLast? with
    | some first, some last => .ok (rows, st.max_session_count, first.1, last.1)
    | _, _ => .error .indexError

/-- The number of `name`'s sessions whose start event has fired and whose end
event has not, among the given (already processed) events: starts minus ends
for that name. -/
def openSessions (events : List Event) (name : String) : Int :=
  (events.countP (fun e => e.2.2 == name && e.2.1 == 1) : Int) -
  (events.countP (fun e => e.2.2 == name && e.2.1 == -1) : Int)

/-- Sum of the per-user open-session counts of a `current_users` dict. -/
def sumValues (d : List (String × Int)) : Int := (d.map (fun p => p.2)).sum

/-- The count a dict associates to a key, zero when absent. -/
def dictCount (d : List (String × Int)) (k : String) : Int := (dictGet d k).getD 0

/-- Well-formedness of the `current_users` dict: unique keys and every
stored count at least 1 (a key whose count reaches 0 is removed). -/
def cuWF (d : List (String × Int)) : Prop :=
  (d.map Prod.fst).Nodup ∧ ∀ p ∈ d, 1 ≤ p.2

/-- Every delta in the stream is `+1` (session start) or `-1` (session
end), as `get_event_list` produces. -/
def deltasOK (events : List Event) : Prop :=
  ∀ e ∈ events, e.2.1 = 1 ∨ e.2.1 = -1

/-! Section: Concrete sample data. -/

def dtA : DateTime := ⟨2023, 1, 1, 10, 0, 0, 0⟩

def dtB : DateTime := ⟨2023, 1, 1, 11, 0, 0, 0⟩

def dtC : DateTime := ⟨2021, 1, 1, 10, 0, 0, 0⟩

/-- A small parser fixture: three recognized timestamp strings. -/
def fiso0 : String → Option DateTime := fun s =>
  if s = "A" then some dtA
  else if s = "B" then some dtB
  else if s = "C" then some dtC
  else none

/-- An empty user directory fixture. -/
def noUsers : String → Option String := fun _ => none

/-! Section: Order facts about the comparators. -/

open Batteries in
theorem charsCmp_swap (x y : List Char) : (charsCmp x y).swap = charsCmp y x := by
  induction x generalizing y with
  | nil => cases y <;> rfl
  | cons a as ih =>
    cases y with
    | nil => rfl
    | cons b bs =>
      show ((compare a.toNat b.toNat).then (charsCmp as bs)).swap = _
      rw [Ordering.swap_then, ih, OrientedCmp.symm]
      rfl

instance charsOriented : Batteries.OrientedCmp charsCmp := ⟨charsCmp_swap⟩

open Batteries in
theorem charsCmp_le_trans : ∀ {x y z : List Char},
    charsCmp x y ≠ .gt → charsCmp y z ≠ .gt → charsCmp x z ≠ .gt := by
  intro x
  induction x with
  | nil => intro y z _ _; cases z <;> simp [charsCmp]
  | cons a as ih =>
    intro y z h1 h2
    cases y with
    | nil => cases h1 rfl
    | cons b bs =>
      cases z with
      | nil => cases h2 rfl
      | cons c cs =>
        simp only [charsCmp, ne_eq, Ordering.then_eq_gt, not_or, not_and] at h1 h2 ⊢
        constructor
        · intro hac
          rcases hab : compare a.toNat b.toNat with _ | _ | _
          · exact absurd (TransCmp.lt_le_trans hab h2.1) (by rw [hac]; simp)
          · have heq := Nat.compare_eq_eq.mp hab
            rw [heq] at hac
            exact h2.1 hac
          · exact h1.1 hab
        · intro hac hrec
          rcases hab : compare a.toNat b.toNat with _ | _ | _
          · have := TransCmp.lt_le_trans hab h2.1
            rw [hac] at this; cases this
          · have heq := Nat.compare_eq_eq.mp hab
            rw [heq] at hac
            exact ih (h1.2 hab) (h2.2 hac) hrec
          · exact absurd hab h1.1

instance charsTrans : Batteries.TransCmp charsCmp :=
  { charsOriented with le_trans := charsCmp_le_trans }

instance strOriented : Batteries.OrientedCmp strCmp :=
  ⟨fun x y => charsCmp_swap x.data y.data⟩

instance strTrans : Batteries.TransCmp strCmp :=
  { strOriented with le_trans := fun h1 h2 => charsCmp_le_trans h1 h2 }

/-- Composing a transitive comparator with a projection keeps it
transitive. -/
theorem transCmp_comp {α β : Type} (cmp : β → β → Ordering) (f : α → β)
    (h : Batteries.TransCmp cmp) : Batteries.TransCmp (fun a b => cmp (f a) (f b)) :=
  { symm := fun x y => h.symm (f x) (f y),
    le_trans := fun h1 h2 => h.le_trans h1 h2 }

instance dtTrans : Batteries.TransCmp dtCmp := by
  unfold dtCmp
  infer_instance

instance eventTrans : Batteries.TransCmp eventCmp := by
  unfold eventCmp
  haveI i1 := transCmp_comp dtCmp (fun e : Event => e.1) dtTrans
  haveI i2 := transCmp_comp (compare : Int → Int → Ordering) (fun e : Event => e.2.1)
    inferInstance
  haveI i3 := transCmp_comp strCmp (fun e : Event => e.2.2) strTrans
  exact inferInstance

instance eventLEPTrans : IsTrans Event eventLEP :=
  ⟨fun _ _ _ h1 h2 => Batteries.TransCmp.le_trans h1 h2⟩

instance eventLEPTotal : IsTotal Event eventLEP :=
  ⟨fun a b =>
    if h : eventCmp a b = .gt then .inr (Batteries.TransCmp.gt_asymm h) else .inl h⟩

/-! Section: Dictionary lemmas. -/

theorem dictGet_dictSet_self {α : Type} (d : List (String × α)) (k : String) (v : α) :
    dictGet (dictSet d k v) k = some v := by
  induction d with
  | nil => simp [dictGet, dictSet]
  | cons p rest ih =>
    by_cases h : p.1 = k
    · simp [dictSet, dictGet, h]
    · simp [dictSet, dictGet, h, ih]

theorem dictGet_dictSet_ne {α : Type} (d : List (String × α)) (k k' : String) (v : α)
    (h : k' ≠ k) : dictGet (dictSet d k v) k' = dictGet d k' := by
  have h1 : ¬ (k = k') := fun h' => h h'.symm
  induction d with
  | nil => simp [dictGet, dictSet, h1]

  | cons p rest ih =>
    by_cases hp : p.1 = k
    · have h2 : ¬ (p.1 = k') := by rw [hp]; exact h1
      simp [dictSet, dictGet, hp, h1, h2]
    · by_cases hp' : p.1 = k'
      · simp [dictSet, dictGet, hp, hp', h]
      · simp [dictSet, dictGet, hp, hp', ih]

theorem mem_dictSet {α : Type} (d : List (String × α)) (k : String) (v : α) :
    ∀ p ∈ dictSet d k v, p ∈ d ∨ p = (k, v) := by
  induction d with
  | nil => simp [dictSet]
  | cons q rest ih =>
    intro p hp
    by_cases hq : q.1 = k
    · simp only [dictSet, if_pos hq, List.mem_cons] at hp
      rcases hp with hp | hp
      · exact .inr hp
      · exact .inl (List.mem_cons_of_mem q hp)
    · simp only [dictSet, if_neg hq, List.mem_cons] at hp
      rcases hp with hp | hp
      · exact .inl (hp ▸ List.mem_cons_self q rest)
      · rcases ih p hp with h | h
        · exact .inl (List.mem_cons_of_mem q h)
        · exact .inr h

theorem dictDel_sublist {α : Type} (d : List (String × α)) (k : String) :
    (dictDel d k).Sublist d := by
  induction d with
  | nil => simp [dictDel]
  | cons q rest ih =>
    by_cases hq : q.1 = k
    · rw [dictDel, if_pos hq]
      exact List.sublist_cons_self q rest
    · simpa [dictDel, hq] using List.Sublist.cons₂ q ih

theorem mem_dictDel {α : Type} (d : List (String × α)) (k : String) :
    ∀ p ∈ dictDel d k, p ∈ d :=
  fun _ hp => (dictDel_sublist d k).mem hp

theorem dictGet_eq_none {α : Type} (d : List (String × α)) (k : String)
    (h : k ∉ d.map Prod.fst) : dictGet d k = none := by
  induction d with
  | nil => rfl
  | cons p rest ih =>
    simp only [List.map_cons, List.mem_cons, not_or] at h
    have h1 : ¬ (p.1 = k) := fun h' => h.1 h'.symm
    simp [dictGet, h1, ih h.2]

theorem dictGet_of_mem_nodup {α : Type} (d : List (String × α))
    (hnd : (d.map Prod.fst).Nodup) : ∀ p ∈ d, dictGet d p.1 = some p.2 := by
  induction d with
  | nil => simp
  | cons q rest ih =>
    intro p hp
    simp only [List.map_cons, List.nodup_cons] at hnd
    rcases List.mem_cons.mp hp with hp | hp
    · subst hp; simp [dictGet]
    · have hne : q.1 ≠ p.1 := fun he =>
        hnd.1 (by rw [he]; exact List.mem_map_of_mem Prod.fst hp)
      simp [dictGet, hne, ih hnd.2 p hp]

theorem keys_dictSet {α : Type} (d : List (String × α)) (k : String) (v : α) :
    (dictSet d k v).map Prod.fst =
      if k ∈ d.map Prod.fst then d.map Prod.fst else d.map Prod.fst ++ [k] := by
  induction d with
  | nil => simp [dictSet]
  | cons p rest ih =>
    by_cases hp : p.1 = k
    · simp [dictSet, hp]
    · have : ¬ k = p.1 := fun h => hp h.symm
      by_cases hk : k ∈ rest.map Prod.fst <;>
        simp [dictSet, hp, ih, hk, this]

theorem nodup_keys_dictSet {α : Type} (d : List (String × α)) (k : String) (v : α)
    (h : (d.map Prod.fst).Nodup) : ((dictSet d k v).map Prod.fst).Nodup := by
  rw [keys_dictSet]
  by_cases hk : k ∈ d.map Prod.fst
  · simpa [hk] using h
  · rw [if_neg hk]
    refine List.Nodup.append h (List.nodup_singleton k) ?_
    intro a ha hb
    rw [List.mem_singleton] at hb
    subst hb
    exact hk ha

theorem nodup_keys_dictDel {α : Type} (d : List (String × α)) (k : String)
    (h : (d.map Prod.fst).Nodup) : ((dictDel d k).map Prod.fst).Nodup :=
  ((dictDel_sublist d k).map Prod.fst).nodup h

theorem dictGet_dictDel_self {α : Type} (d : List (String × α)) (k : String)
    (hnd : (d.map Prod.fst).Nodup) : dictGet (dictDel d k) k = none := by
  induction d with
  | nil => rfl
  | cons p rest ih =>
    simp only [List.map_cons, List.nodup_cons] at hnd
    by_cases hp : p.1 = k
    · subst hp
      simp only [dictDel, if_pos rfl]
      exact dictGet_eq_none rest p.1 hnd.1
    · simp [dictDel, dictGet, hp, ih hnd.2]

theorem dictGet_dictDel_ne {α : Type} (d : List (String × α)) (k k' : String)
    (h : k' ≠ k) : dictGet (dictDel d k) k' = dictGet d k' := by
  have h1 : ¬ (k = k') := fun h' => h h'.symm
  induction d with
  | nil => rfl
  | cons p rest ih =>
    by_cases hp : p.1 = k
    · simp [dictDel, dictGet, hp, h1]
    · by_cases hp' : p.1 = k'
      · simp [dictDel, dictGet, hp, hp', h]
      · simp [dictDel, dictGet, hp, hp', ih]

theorem sumValues_dictSet (d : List (String × Int)) (k : String) (v : Int) :
    sumValues (dictSet d k v) = sumValues d - (dictGet d k).getD 0 + v := by
  induction d with
  | nil => simp [dictSet, sumValues, dictGet]
  | cons p rest ih =>
    by_cases hp : p.1 = k
    · simp [dictSet, sumValues, dictGet, hp]
      ring
    · simp only [dictSet, if_neg hp, sumValues, List.map_cons, List.sum_cons, dictGet] at *
      rw [ih]
      ring

theorem sumValues_dictDel (d : List (String × Int)) (k : String) :
    sumValues (dictDel d k) = sumValues d - (dictGet d k).getD 0 := by
  induction d with
  | nil => simp [dictDel, sumValues, dictGet]
  | cons p rest ih =>
    by_cases hp : p.1 = k
    · simp [dictDel, sumValues, dictGet, hp]
    · simp only [dictDel, if_neg hp, sumValues, List.map_cons, List.sum_cons, dictGet] at *
      rw [ih]
      ring

theorem dictGet_mem {α : Type} (d : List (String × α)) (k : String) (v : α)
    (h : dictGet d k = some v) : (k, v) ∈ d := by
  induction d with
  | nil => cases h
  | cons p rest ih =>
    by_cases hp : p.1 = k
    · rw [dictGet, if_pos hp] at h
      have hv : p.2 = v := Option.some.inj h
      have : p = (k, v) := Prod.ext hp hv
      exact this ▸ List.mem_cons_self p rest
    · rw [dictGet, if_neg hp] at h
      exact List.mem_cons_of_mem p (ih h)

/-! Section: Sweep step lemmas. -/

theorem sweepStep_start (st : SweepState) (t : DateTime) (n : String) :
    sweepStep st (t, 1, n) =
      .ok ({ session_count := st.session_count + 1,
             max_session_count := max st.max_session_count (st.session_count + 1),
             current_users :=
               dictSet st.current_users n ((dictGet st.current_users n).getD 0 + 1) },
           (t, st.session_count + 1,
            renderUsers
              (dictSet st.current_users n ((dictGet st.current_users n).getD 0 + 1)))) := by
  have h1 : ¬ ((1 : Int) = -1) := by decide
  simp [sweepStep, h1]

theorem sweepStep_end_none (st : SweepState) (t : DateTime) (n : String)
    (hget : dictGet st.current_users n = none) :
    sweepStep st (t, -1, n) = .error (.keyError n) := by
  have h1 : ¬ ((-1 : Int) = 1) := by decide
  simp [sweepStep, h1, hget]

theorem sweepStep_end_some (st : SweepState) (t : DateTime) (n : String) (v : Int)
    (hget : dictGet st.current_users n = some v) :
    sweepStep st (t, -1, n) =
      .ok ({ session_count := st.session_count + -1,
             max_session_count := max st.max_session_count (st.session_count + -1),
             current_users :=
               if v - 1 = 0 then dictDel (dictSet st.current_users n (v - 1)) n
               else dictSet st.current_users n (v - 1) },
           (t, st.session_count + -1,
            renderUsers
              (if v - 1 = 0 then dictDel (dictSet st.current_users n (v - 1)) n
               else dictSet st.current_users n (v - 1)))) := by
  have h1 : ¬ ((-1 : Int) = 1) := by decide
  simp [sweepStep, h1, hget]

/-! Section: Open-session counting. -/

theorem openSessions_nil (name : String) : openSessions [] name = 0 := rfl

theorem openSessions_cons_start (t : DateTime) (n : String) (rest : List Event)
    (name : String) :
    openSessions ((t, 1, n) :: rest) name =
      (if n = name then 1 else 0) + openSessions rest name := by
  unfold openSessions
  rw [List.countP_cons, List.countP_cons]
  by_cases h : n = name
  · simp only [h]
    simp
    ring
  · simp [h]

theorem openSessions_cons_end (t : DateTime) (n : String) (rest : List Event)
    (name : String) :
    openSessions ((t, -1, n) :: rest) name =
      (if n = name then -1 else 0) + openSessions rest name := by
  unfold openSessions
  rw [List.countP_cons, List.countP_cons]
  by_cases h : n = name
  · simp only [h]
    simp
    ring
  · simp [h]

/-! Section: The sweep invariant. -/

theorem sweepAux_master :
    ∀ (events : List Event) (st stf : SweepState) (rows : List OutputRow),
      deltasOK events → cuWF st.current_users →
      sweepAux st events = .ok (stf, rows) →
      cuWF stf.current_users ∧
      (∀ name, dictCount stf.current_users name =
        dictCount st.current_users name + openSessions events name) ∧
      stf.session_count - sumValues stf.current_users =
        st.session_count - sumValues st.current_users := by
  intro events
  induction events with
  | nil =>
    intro st stf rows _ hwf h
    obtain ⟨rfl, rfl⟩ : st = stf ∧ ([] : List OutputRow) = rows := by
      cases h; exact ⟨rfl, rfl⟩
    exact ⟨hwf, fun name => by simp [openSessions_nil], rfl⟩
  | cons e rest ih =>
    intro st stf rows hd hwf h
    obtain ⟨t, d, n⟩ := e
    have hd0 : d = 1 ∨ d = -1 := hd (t, d, n) (List.mem_cons_self _ _)
    have hdrest : deltasOK rest := fun e he => hd e (List.mem_cons_of_mem _ he)
    rcases hd0 with rfl | rfl
    · -- start event
      rw [sweepAux, sweepStep_start] at h
      dsimp only at h
      set g := (dictGet st.current_users n).getD 0 with hg
      set cu2 := dictSet st.current_users n (g + 1) with hcu2
      have hge : 0 ≤ g := by
        rcases hget : dictGet st.current_users n with _ | v
        · simp [hg, hget]
        · have := hwf.2 (n, v) (dictGet_mem _ _ _ hget)
          simp only [hg, hget, Option.getD_some]
          omega
      have hwf2 : cuWF cu2 := by
        constructor
        · exact nodup_keys_dictSet st.current_users n (g + 1) hwf.1
        · intro p hp
          rcases mem_dictSet st.current_users n (g + 1) p hp with hp' | hp'
          · exact hwf.2 p hp'
          · rw [hp']; omega
      cases hrest : sweepAux
          ⟨st.session_count + 1, max st.max_session_count (st.session_count + 1), cu2⟩
          rest with
      | error err => rw [hrest] at h; cases h
      | ok res =>
        obtain ⟨stf', rows'⟩ := res
        rw [hrest] at h
        obtain ⟨rfl, -⟩ : stf' = stf ∧ rows = _ := by cases h; exact ⟨rfl, rfl⟩
        obtain ⟨hwff, hcount, hsum⟩ := ih _ _ _ hdrest hwf2 hrest
        refine ⟨hwff, ?_, ?_⟩
        · intro name
          rw [hcount name, openSessions_cons_start]
          have hstep : dictCount cu2 name =
              dictCount st.current_users name + (if n = name then 1 else 0) := by
            by_cases hnm : n = name
            · subst hnm
              simp [dictCount, hcu2, dictGet_dictSet_self, hg]
            · have := dictGet_dictSet_ne st.current_users n name (g + 1)
                (fun h' => hnm h'.symm)
              simp [dictCount, hcu2, this, hnm]
          rw [hstep]
          ring
        · rw [hsum]
          have : sumValues cu2 = sumValues st.current_users + 1 := by
            rw [hcu2, sumValues_dictSet]
            omega
          simp only [this]
          ring
    · -- end event
      rcases hget : dictGet st.current_users n with _ | v
      · rw [sweepAux, sweepStep_end_none st t n hget] at h
        dsimp only at h
        cases h
      · have hv : 1 ≤ v := hwf.2 (n, v) (dictGet_mem _ _ _ hget)
        rw [sweepAux, sweepStep_end_some st t n v hget] at h
        dsimp only at h
        set cu1 := dictSet st.current_users n (v - 1) with hcu1
        set cu2 := if v - 1 = 0 then dictDel cu1 n else cu1 with hcu2
        have hnd1 : (cu1.map Prod.fst).Nodup :=
          nodup_keys_dictSet st.current_users n (v - 1) hwf.1
        have hget1 : dictGet cu1 n = some (v - 1) := dictGet_dictSet_self _ _ _
        have hwf2 : cuWF cu2 := by
          by_cases h0 : v - 1 = 0
          · rw [hcu2, if_pos h0]
            constructor
            · exact nodup_keys_dictDel cu1 n hnd1
            · intro p hp
              have hpmem : p ∈ cu1 := mem_dictDel cu1 n p hp
              rcases mem_dictSet st.current_users n (v - 1) p hpmem with hp' | hp'
              · exact hwf.2 p hp'
              · exfalso
                have hnone : dictGet (dictDel cu1 n) n = none :=
                  dictGet_dictDel_self cu1 n hnd1
                have hsome : dictGet (dictDel cu1 n) p.1 = some p.2 :=
                  dictGet_of_mem_nodup (dictDel cu1 n) (nodup_keys_dictDel cu1 n hnd1) p hp
                rw [hp'] at hsome
                rw [hnone] at hsome
                cases hsome
          · rw [hcu2, if_neg h0]
            constructor
            · exact hnd1
            · intro p hp
              rcases mem_dictSet st.current_users n (v - 1) p hp with hp' | hp'
              · exact hwf.2 p hp'
              · rw [hp']; omega
        have hstepcount : ∀ name, dictCount cu2 name =
            dictCount st.current_users name + (if n = name then -1 else 0) := by
          intro name
          by_cases hnm : n = name
          · subst hnm
            by_cases h0 : v - 1 = 0
            · rw [hcu2, if_pos h0]
              simp [dictCount, dictGet_dictDel_self cu1 n hnd1, hget]
              omega
            · rw [hcu2, if_neg h0]
              simp [dictCount, hget1, hget]
              omega
          · have hne : name ≠ n := fun h' => hnm h'.symm
            have h1 : dictGet cu1 name = dictGet st.current_users name :=
              dictGet_dictSet_ne st.current_users n name (v - 1) hne
            by_cases h0 : v - 1 = 0
            · rw [hcu2, if_pos h0]
              rw [dictCount, dictGet_dictDel_ne cu1 n name hne, h1]
              simp [dictCount, hnm]
            · rw [hcu2, if_neg h0]
              rw [dictCount, h1]
              simp [dictCount, hnm]
        have hstepsum : sumValues cu2 = sumValues st.current_users + -1 := by
          by_cases h0 : v - 1 = 0
          · rw [hcu2, if_pos h0, sumValues_dictDel, hget1, hcu1, sumValues_dictSet, hget]
            simp
            omega
          · rw [hcu2, if_neg h0, hcu1, sumValues_dictSet, hget]
            simp
            omega
        cases hrest : sweepAux
            ⟨st.session_count + -1, max st.max_session_count (st.session_count + -1), cu2⟩
            rest with
        | error err => rw [hrest] at h; cases h
        | ok res =>
          obtain ⟨stf', rows'⟩ := res
          rw [hrest] at h
          obtain ⟨rfl, -⟩ : stf' = stf ∧ rows = _ := by cases h; exact ⟨rfl, rfl⟩
          obtain ⟨hwff, hcount, hsum⟩ := ih _ _ _ hdrest hwf2 hrest
          refine ⟨hwff, ?_, ?_⟩
          · intro name
            rw [hcount name, openSessions_cons_end, hstepcount name]
            ring
          · rw [hsum]
            simp only [hstepsum]
            ring

/-! Section: Row accounting for the sweep. -/

theorem sweepStep_fst (st st2 : SweepState) (e : Event) (row : OutputRow)
    (h : sweepStep st e = .ok (st2, row)) : row.1 = e.1 := by
  obtain ⟨t, d, n⟩ := e
  simp only [sweepStep] at h
  split at h
  · split at h
    · cases h
    · injection h with h'
      exact (congrArg (fun p => p.2.1) h').symm
  · injection h with h'
    exact (congrArg (fun p => p.2.1) h').symm

theorem sweepAux_rows :
    ∀ (events : List Event) (st stf : SweepState) (rows : List OutputRow),
      sweepAux st events = .ok (stf, rows) →
      rows.length = events.length ∧
      ∀ i (h1 : i < rows.length) (h2 : i < events.length),
        (rows.get ⟨i, h1⟩).1 = (events.get ⟨i, h2⟩).1 := by
  intro events
  induction events with
  | nil =>
    intro st stf rows h
    obtain ⟨-, rfl⟩ : st = stf ∧ ([] : List OutputRow) = rows := by
      cases h; exact ⟨rfl, rfl⟩
    exact ⟨rfl, fun i h1 h2 => absurd h1 (Nat.not_lt_zero i)⟩
  | cons e rest ih =>
    intro st stf rows h
    rw [sweepAux] at h
    cases hstep : sweepStep st e with
    | error err => rw [hstep] at h; cases h
    | ok res =>
      obtain ⟨st2, row⟩ := res
      rw [hstep] at h
      dsimp only at h
      cases hrest : sweepAux st2 rest with
      | error err => rw [hrest] at h; cases h
      | ok res2 =>
        obtain ⟨stf', rows'⟩ := res2
        rw [hrest] at h
        obtain ⟨-, rfl⟩ : stf' = stf ∧ row :: rows' = rows := by
          cases h; exact ⟨rfl, rfl⟩
        obtain ⟨hlen, hidx⟩ := ih st2 stf' rows' hrest
        refine ⟨by simp [hlen], ?_⟩
        intro i h1 h2
        cases i with
        | zero => exact sweepStep_fst st st2 e row hstep
        | succ j =>
          exact hidx j (Nat.lt_of_succ_lt_succ h1) (Nat.lt_of_succ_lt_succ h2)

/-! Section: Event-stream builder lemmas. -/

theorem processRow_ok_cases (f : String → Option DateTime) (ud : String → Option String)
    (row : List String) (evs : List Event) (h : processRow f ud row = .ok evs) :
    (rowIsValid f row = true ∧ ∃ sd ed n, evs = [(sd, 1, n), (ed, -1, n)]) ∨
    (rowIsValid f row = false ∧ evs = []) := by
  simp only [processRow] at h
  cases h1 : dictGet (row_dict row) "start_timestamp" with
  | none => rw [h1] at h; cases h
  | some s =>
    rw [h1] at h
    dsimp only at h
    cases h2 : f (stripOffset s) with
    | none => rw [h2] at h; cases h
    | some sd =>
      rw [h2] at h
      dsimp only at h
      cases h3 : dictGet (row_dict row) "end_timestamp" with
      | none => rw [h3] at h; cases h
      | some e2 =>
        rw [h3] at h
        dsimp only at h
        cases h4 : f (stripOffset e2) with
        | none => rw [h4] at h; cases h
        | some ed =>
          rw [h4] at h
          dsimp only at h
          have hrv : rowIsValid f row =
              !(decide (sd.year < 2022) || decide (ed.year < 2022)) := by
            unfold rowIsValid
            rw [h1]
            dsimp only
            rw [h2]
            dsimp only
            rw [h3]
            dsimp only
            rw [h4]
          by_cases hy : sd.year < 2022 ∨ ed.year < 2022
          · rw [if_pos hy] at h
            refine .inr ⟨?_, (Except.ok.inj h).symm⟩
            rw [hrv]
            rcases hy with hy | hy <;> simp [hy]
          · rw [if_neg hy] at h
            cases h5 : dictGet (row_dict row) "user_id" with
            | none => rw [h5] at h; cases h
            | some uid =>
              rw [h5] at h
              dsimp only at h
              refine .inl ⟨?_, sd, ed, (ud uid).getD uid, (Except.ok.inj h).symm⟩
              rw [hrv]
              rw [not_or] at hy
              simp [hy.1, hy.2]

theorem build_events_mem (f : String → Option DateTime) (ud : String → Option String) :
    ∀ (rows : List (List String)) (evs : List Event),
      build_events f ud rows = .ok evs →
      ∀ row ∈ rows, ∃ l, processRow f ud row = .ok l := by
  intro rows
  induction rows with
  | nil => intro evs _ row hrow; cases hrow
  | cons r rest ih =>
    intro evs h row hrow
    rw [build_events] at h
    cases hp : processRow f ud r with
    | error err => rw [hp] at h; cases h
    | ok l =>
      rw [hp] at h
      dsimp only at h
      cases hb : build_events f ud rest with
      | error err => rw [hb] at h; cases h
      | ok l' =>
        rcases List.mem_cons.mp hrow with rfl | hrow'
        · exact ⟨l, hp⟩
        · exact ih l' hb row hrow'

theorem build_events_length (f : String → Option DateTime) (ud : String → Option String) :
    ∀ (rows : List (List String)) (evs : List Event),
      build_events f ud rows = .ok evs →
      evs.length = 2 * rows.countP (fun r => rowIsValid f r) := by
  intro rows
  induction rows with
  | nil =>
    intro evs h
    obtain rfl : ([] : List Event) = evs := by cases h; rfl
    simp
  | cons r rest ih =>
    intro evs h
    rw [build_events] at h
    cases hp : processRow f ud r with
    | error err => rw [hp] at h; cases h
    | ok l =>
      rw [hp] at h
      dsimp only at h
      cases hb : build_events f ud rest with
      | error err => rw [hb] at h; cases h
      | ok l' =>
        rw [hb] at h
        obtain rfl : l ++ l' = evs := Except.ok.inj h
        have hrest := ih l' hb
        rw [List.countP_cons, List.length_append, hrest]
        rcases processRow_ok_cases f ud r l hp with ⟨hv, -, -, -, rfl⟩ | ⟨hv, rfl⟩
        · simp [hv]
          omega
        · simp [hv]

theorem build_events_deltas (f : String → Option DateTime) (ud : String → Option String) :
    ∀ (rows : List (List String)) (evs : List Event),
      build_events f ud rows = .ok evs → deltasOK evs := by
  intro rows
  induction rows with
  | nil =>
    intro evs h
    obtain rfl : ([] : List Event) = evs := by cases h; rfl
    intro e he; cases he
  | cons r rest ih =>
    intro evs h
    rw [build_events] at h
    cases hp : processRow f ud r with
    | error err => rw [hp] at h; cases h
    | ok l =>
      rw [hp] at h
      dsimp only at h
      cases hb : build_events f ud rest with
      | error err => rw [hb] at h; cases h
      | ok l' =>
        rw [hb] at h
        obtain rfl : l ++ l' = evs := Except.ok.inj h
        intro e he
        rcases List.mem_append.mp he with he' | he'
        · rcases processRow_ok_cases f ud r l hp with ⟨-, sd, ed, n, rfl⟩ | ⟨-, rfl⟩
          · rcases List.mem_cons.mp he' with rfl | he''
            · left; rfl
            · rcases List.mem_cons.mp he'' with rfl | he3
              · right; rfl
              · cases he3
          · cases he'
        · exact ih l' hb e he'

theorem get_event_list_ok (f : String → Option DateTime) (ud : String → Option String)
    (rows : List (List String)) (evs : List Event)
    (h : get_event_list f ud rows = .ok evs) :
    ∃ l, build_events f ud rows = .ok l ∧ evs = l.insertionSort eventLEP := by
  rw [get_event_list] at h
  cases hb : build_events f ud rows with
  | error err => rw [hb] at h; cases h
  | ok l =>
    rw [hb] at h
    exact ⟨l, rfl, (Except.ok.inj h).symm⟩

theorem processRow_ok_shape (f : String → Option DateTime)
    (ud : String → Option String) (row : List String) (evs : List Event)
    (h : processRow f ud row = .ok evs) (hv : rowIsValid f row = true) :
    ∃ s sd e2 ed uid,
      dictGet (row_dict row) "start_timestamp" = some s ∧
      f (stripOffset s) = some sd ∧
      dictGet (row_dict row) "end_timestamp" = some e2 ∧
      f (stripOffset e2) = some ed ∧
      dictGet (row_dict row) "user_id" = some uid ∧
      evs = [(sd, 1, (ud uid).getD uid), (ed, -1, (ud uid).getD uid)] := by
  simp only [processRow] at h
  cases h1 : dictGet (row_dict row) "start_timestamp" with
  | none => rw [h1] at h; cases h
  | some s =>
    rw [h1] at h
    dsimp only at h
    cases h2 : f (stripOffset s) with
    | none => rw [h2] at h; cases h
    | some sd =>
      rw [h2] at h
      dsimp only at h
      cases h3 : dictGet (row_dict row) "end_timestamp" with
      | none => rw [h3] at h; cases h
      | some e2 =>
        rw [h3] at h
        dsimp only at h
        cases h4 : f (stripOffset e2) with
        | none => rw [h4] at h; cases h
        | some ed =>
          rw [h4] at h
          dsimp only at h
          by_cases hy : sd.year < 2022 ∨ ed.year < 2022
          · exfalso
            have hrv : rowIsValid f row =
                !(decide (sd.year < 2022) || decide (ed.year < 2022)) := by
              unfold rowIsValid
              rw [h1]
              dsimp only
              rw [h2]
              dsimp only
              rw [h3]
              dsimp only
              rw [h4]
            rw [hrv] at hv
            rcases hy with hy | hy <;> simp [hy] at hv
          · rw [if_neg hy] at h
            cases h5 : dictGet (row_dict row) "user_id" with
            | none => rw [h5] at h; cases h
            | some uid =>
              rw [h5] at h
              dsimp only at h
              exact ⟨s, sd, e2, ed, uid, rfl, h2, rfl, h4, rfl, (Except.ok.inj h).symm⟩

/-! Section: Claim theorems. -/

/-- C1: the event stream produced by the Event Stream Builder is sorted
ascending by the compound key (timestamp, delta, display_name) — `eventLEP`
is Python's tuple comparison, primarily timestamp, ties broken by delta then
name — and consequently the event timestamps, and the timestamps of the
output rows the sweep emits from it, are non-decreasing. -/
theorem event_stream_sorted (f : String → Option DateTime)
    (ud : String → Option String) (rows : List (List String))
    (events : List Event) (stf : SweepState) (outRows : List OutputRow)
    (h : get_event_list f ud rows = .ok events)
    (hs : sweepAux initState events = .ok (stf, outRows)) :
    events.Pairwise eventLEP ∧
    events.Pairwise (fun a b => dtCmp a.1 b.1 ≠ Ordering.gt) ∧
    outRows.Pairwise (fun a b => dtCmp a.1 b.1 ≠ Ordering.gt) := by
  obtain ⟨l, hb, rfl⟩ := get_event_list_ok f ud rows events h
  have hsorted : List.Pairwise eventLEP (l.insertionSort eventLEP) :=
    List.sorted_insertionSort eventLEP l
  have hdt : ∀ a b : Event, eventLEP a b → dtCmp a.1 b.1 ≠ Ordering.gt := by
    intro a b hab hgt
    apply hab
    have hrep : eventCmp a b =
        (dtCmp a.1 b.1).then
          ((compare a.2.1 b.2.1).then (strCmp a.2.2 b.2.2)) := rfl
    rw [hrep, hgt]
    rfl
  have hdtev := hsorted.imp (fun hab => hdt _ _ hab)
  refine ⟨hsorted, hdtev, ?_⟩
  obtain ⟨hlen, hidx⟩ := sweepAux_rows _ _ _ _ hs
  rw [List.pairwise_iff_get] at hdtev ⊢
  intro i j hij
  have hi' : (i : Nat) < (l.insertionSort eventLEP).length := by
    rw [← hlen]; exact i.isLt
  have hj' : (j : Nat) < (l.insertionSort eventLEP).length := by
    rw [← hlen]; exact j.isLt
  rw [hidx i i.isLt hi', hidx j j.isLt hj']
  exact hdtev ⟨i, hi'⟩ ⟨j, hj'⟩ hij

/-- C1 witness: a concrete two-row input whose events get reordered by the
sort, then swept. -/
theorem event_stream_sorted_witness :
    get_event_list fiso0 noUsers [["B", "A", "u1"]] =
      .ok [(dtA, -1, "u1"), (dtB, 1, "u1")] ∧
    sweepAux initState [(dtA, 1, "u1"), (dtB, -1, "u1")] =
      .ok (⟨0, 1, []⟩, [(dtA, 1, "u1=1"), (dtB, 0, "")]) ∧
    (List.Pairwise eventLEP [(dtA, 1, "u1"), (dtB, -1, "u1")] ∧
     List.Pairwise (fun a b : Event => dtCmp a.1 b.1 ≠ Ordering.gt)
       [(dtA, 1, "u1"), (dtB, -1, "u1")] ∧
     List.Pairwise (fun a b : OutputRow => dtCmp a.1 b.1 ≠ Ordering.gt)
       [(dtA, 1, "u1=1"), (dtB, 0, "")]) :=
  ⟨rfl, rfl, event_stream_sorted fiso0 noUsers [["A", "B", "u1"]] _ _ _ rfl rfl⟩

/-- C2: after sweeping any event stream of ±1 deltas without a fatal
underflow, `current_users` maps each display name to the number of its
sessions whose start event has fired and whose end has not; every present
key has count at least 1, and a name whose open count is 0 is absent (the
key was removed when its count reached 0). -/
theorem active_users_correct (events : List Event) (stf : SweepState)
    (rows : List OutputRow) (hd : deltasOK events)
    (h : sweepAux initState events = .ok (stf, rows)) :
    (∀ name, dictCount stf.current_users name = openSessions events name) ∧
    (∀ name c, dictGet stf.current_users name = some c → 1 ≤ c) ∧
    (∀ name, openSessions events name = 0 →
      dictGet stf.current_users name = none) := by
  have hwf0 : cuWF initState.current_users :=
    ⟨List.nodup_nil, by intro p hp; cases hp⟩
  obtain ⟨hwf, hcount, -⟩ := sweepAux_master events initState stf rows hd hwf0 h
  have hcount' : ∀ name,
      dictCount stf.current_users name = openSessions events name := by
    intro name
    have hc := hcount name
    simpa [dictCount, dictGet, initState] using hc
  refine ⟨hcount', ?_, ?_⟩
  · intro name c hgetc
    exact hwf.2 (name, c) (dictGet_mem _ _ _ hgetc)
  · intro name hopen
    cases hget : dictGet stf.current_users name with
    | none => rfl
    | some c =>
      exfalso
      have h1 : 1 ≤ c := hwf.2 (name, c) (dictGet_mem _ _ _ hget)
      have h2 : dictCount stf.current_users name = 0 := by
        rw [hcount' name, hopen]
      rw [dictCount, hget] at h2
      simp at h2
      omega

/-- C2 witness: two users with overlapping sessions. -/
theorem active_users_correct_witness :
    deltasOK [(dtA, 1, "u"), (dtA, 1, "v"), (dtB, -1, "u")] ∧
    sweepAux initState [(dtA, 1, "u"), (dtA, 1, "v"), (dtB, -1, "u")] =
      .ok (⟨1, 2, [("v", 1)]⟩,
        [(dtA, 1, "u=1"), (dtA, 2, "u=1 v=1"), (dtB, 1, "v=1")]) ∧
    ((∀ name, dictCount [("v", 1)] name =
        openSessions [(dtA, 1, "u"), (dtA, 1, "v"), (dtB, -1, "u")] name) ∧
     (∀ name (c : Int), dictGet ([("v", 1)] : List (String × Int)) name = some c →
        1 ≤ c) ∧
     (∀ name, openSessions [(dtA, 1, "u"), (dtA, 1, "v"), (dtB, -1, "u")] name = 0 →
        dictGet ([("v", 1)] : List (String × Int)) name = none)) :=
  ⟨by unfold deltasOK; decide, rfl,
    (by
      exact active_users_correct [(dtA, 1, "u"), (dtA, 1, "v"), (dtB, -1, "u")]
        ⟨1, 2, [("v", 1)]⟩
        [(dtA, 1, "u=1"), (dtA, 2, "u=1 v=1"), (dtB, 1, "v=1")]
        (by unfold deltasOK; decide) (by rfl))⟩

/-- C3: the event stream holds exactly two events per valid record, and the
pairing is exactly as claimed: the +1 event carries the record's parsed
start_timestamp field, the -1 event its parsed end_timestamp field, and both
carry the display name resolved from its user_id field through the directory
with raw-id fallback. -/
theorem event_count (f : String → Option DateTime) (ud : String → Option String)
    (rows : List (List String)) (events : List Event)
    (h : get_event_list f ud rows = .ok events) :
    events.length = 2 * rows.countP (fun r => rowIsValid f r) ∧
    ∀ row ∈ rows, rowIsValid f row = true →
      ∃ s sd e2 ed uid,
        dictGet (row_dict row) "start_timestamp" = some s ∧
        f (stripOffset s) = some sd ∧
        dictGet (row_dict row) "end_timestamp" = some e2 ∧
        f (stripOffset e2) = some ed ∧
        dictGet (row_dict row) "user_id" = some uid ∧
        processRow f ud row =
          .ok [(sd, 1, (ud uid).getD uid), (ed, -1, (ud uid).getD uid)] := by
  obtain ⟨l, hb, rfl⟩ := get_event_list_ok f ud rows events h
  constructor
  · rw [(List.perm_insertionSort eventLEP l).length_eq]
    exact build_events_length f ud rows l hb
  · intro row hrow hv
    obtain ⟨lr, hlr⟩ := build_events_mem f ud rows l hb row hrow
    obtain ⟨s, sd, e2, ed, uid, h1, h2, h3, h4, h5, rfl⟩ :=
      processRow_ok_shape f ud row lr hlr hv
    exact ⟨s, sd, e2, ed, uid, h1, h2, h3, h4, h5, hlr⟩

/-- C3 witness: one valid and one invalid record give exactly two events,
paired start-to-+1 and end-to--1 with the resolved name. -/
theorem event_count_witness :
    get_event_list fiso0 noUsers [["A", "B", "u1"], ["C", "B", "u2"]] =
      .ok [(dtA, 1, "u1"), (dtB, -1, "u1")] ∧
    (([(dtA, 1, "u1"), (dtB, -1, "u1")] : List Event).length =
      2 * ([["A", "B", "u1"], ["C", "B", "u2"]].countP
        (fun r => rowIsValid fiso0 r)) ∧
     ∀ row ∈ [["A", "B", "u1"], ["C", "B", "u2"]], rowIsValid fiso0 row = true →
       ∃ s sd e2 ed uid,
         dictGet (row_dict row) "start_timestamp" = some s ∧
         fiso0 (stripOffset s) = some sd ∧
         dictGet (row_dict row) "end_timestamp" = some e2 ∧
         fiso0 (stripOffset e2) = some ed ∧
         dictGet (row_dict row) "user_id" = some uid ∧
         processRow fiso0 noUsers row =
           .ok [(sd, 1, (noUsers uid).getD uid), (ed, -1, (noUsers uid).getD uid)]) :=
  ⟨rfl, event_count fiso0 noUsers [["A", "B", "u1"], ["C", "B", "u2"]] _ rfl⟩

/-- C4: the sweep emits exactly one output row per input event, in event
order — row i carries the timestamp of event i. -/
theorem sweep_row_count (events : List Event) (stf : SweepState)
    (rows : List OutputRow)
    (h : sweepAux initState events = .ok (stf, rows)) :
    rows.length = events.length ∧
    ∀ i (h1 : i < rows.length) (h2 : i < events.length),
      (rows.get ⟨i, h1⟩).1 = (events.get ⟨i, h2⟩).1 :=
  sweepAux_rows events initState stf rows h

/-- C4 witness: a concrete two-event sweep. -/
theorem sweep_row_count_witness :
    sweepAux initState [(dtA, 1, "u"), (dtB, -1, "u")] =
      .ok (⟨0, 1, []⟩, [(dtA, 1, "u=1"), (dtB, 0, "")]) ∧
    (([(dtA, 1, "u=1"), (dtB, 0, "")] : List OutputRow).length =
      ([(dtA, 1, "u"), (dtB, -1, "u")] : List Event).length ∧
     ∀ i (h1 : i < ([(dtA, 1, "u=1"), (dtB, 0, "")] : List OutputRow).length)
       (h2 : i < ([(dtA, 1, "u"), (dtB, -1, "u")] : List Event).length),
       (([(dtA, 1, "u=1"), (dtB, 0, "")] : List OutputRow).get ⟨i, h1⟩).1 =
         (([(dtA, 1, "u"), (dtB, -1, "u")] : List Event).get ⟨i, h2⟩).1) :=
  ⟨rfl, sweep_row_count [(dtA, 1, "u"), (dtB, -1, "u")] _ _ rfl⟩

/-- C5: a record with either timestamp year below 2022 is dropped whole: its
row contributes no events at all, and removing it from the input leaves the
event stream unchanged. -/
theorem year_filter_drops_record (f : String → Option DateTime)
    (ud : String → Option String) (row : List String) (s e2 : String)
    (sd ed : DateTime)
    (hs : dictGet (row_dict row) "start_timestamp" = some s)
    (hps : f (stripOffset s) = some sd)
    (he : dictGet (row_dict row) "end_timestamp" = some e2)
    (hpe : f (stripOffset e2) = some ed)
    (hy : sd.year < 2022 ∨ ed.year < 2022) :
    processRow f ud row = .ok [] ∧
    ∀ rest, get_event_list f ud (row :: rest) = get_event_list f ud rest := by
  have hpr : processRow f ud row = .ok [] := by
    simp only [processRow]
    rw [hs]
    dsimp only
    rw [hps]
    dsimp only
    rw [he]
    dsimp only
    rw [hpe]
    dsimp only
    rw [if_pos hy]
  refine ⟨hpr, ?_⟩
  intro rest
  unfold get_event_list
  rw [build_events, hpr]
  dsimp only
  cases hb : build_events f ud rest with
  | error err => rfl
  | ok l => simp

/-- C5 witness: a record starting in 2021 contributes nothing. -/
theorem year_filter_drops_record_witness :
    (dtC.year < 2022 ∨ dtB.year < 2022) ∧
    (processRow fiso0 noUsers ["C", "B", "u"] = .ok [] ∧
     ∀ rest, get_event_list fiso0 noUsers (["C", "B", "u"] :: rest) =
       get_event_list fiso0 noUsers rest) :=
  ⟨Or.inl (by decide),
    year_filter_drops_record fiso0 noUsers ["C", "B", "u"] "C" "B" dtC dtB
      rfl rfl rfl rfl (Or.inl (by decide))⟩

/-- C6: an end event for a display name with no entry in `current_users` is
a fatal `KeyError`, not a silent no-op or clamp. -/
theorem underflow_fatal (st : SweepState) (t : DateTime) (n : String)
    (h : dictGet st.current_users n = none) :
    sweepStep st (t, -1, n) = .error (.keyError n) :=
  sweepStep_end_none st t n h

/-- C6 witness: an end event on the empty initial state. -/
theorem underflow_fatal_witness :
    dictGet initState.current_users "u" = none ∧
    sweepStep initState (dtA, -1, "u") = .error (.keyError "u") :=
  ⟨rfl, underflow_fatal initState dtA "u" rfl⟩

/-- C7: on the empty event stream the sweep loop itself emits zero rows and
does not fault, but `write_session_count_csv_file` then indexes
`event_list[0]`/`event_list[-1]` for the summary line and raises
`IndexError`. -/
theorem empty_stream_summary_faults :
    sweepAux initState [] = .ok (initState, []) ∧
    write_session_count_csv_file [] = .error .indexError :=
  ⟨rfl, rfl⟩

/-- C9: when a record's `user_id` is absent from the user directory, the raw
id string itself is the display name in both emitted events. -/
theorem lookup_miss_uses_raw_id (f : String → Option DateTime)
    (ud : String → Option String) (row : List String) (s e2 : String)
    (sd ed : DateTime) (uid : String)
    (hs : dictGet (row_dict row) "start_timestamp" = some s)
    (hps : f (stripOffset s) = some sd)
    (he : dictGet (row_dict row) "end_timestamp" = some e2)
    (hpe : f (stripOffset e2) = some ed)
    (hy : ¬ (sd.year < 2022 ∨ ed.year < 2022))
    (hu : dictGet (row_dict row) "user_id" = some uid)
    (hmiss : ud uid = none) :
    processRow f ud row = .ok [(sd, 1, uid), (ed, -1, uid)] := by
  simp only [processRow]
  rw [hs]
  dsimp only
  rw [hps]
  dsimp only
  rw [he]
  dsimp only
  rw [hpe]
  dsimp only
  rw [if_neg hy, hu]
  dsimp only
  rw [hmiss]
  rfl

/-- C9 witness: an id missing from the (empty) directory appears verbatim. -/
theorem lookup_miss_uses_raw_id_witness :
    noUsers "someuser" = none ∧
    processRow fiso0 noUsers ["A", "B", "someuser"] =
      .ok [(dtA, 1, "someuser"), (dtB, -1, "someuser")] :=
  ⟨rfl, lookup_miss_uses_raw_id fiso0 noUsers ["A", "B", "someuser"] "A" "B"
    dtA dtB "someuser" rfl rfl rfl rfl (by decide) rfl rfl⟩

/-- C10: whenever the sweep of a ±1-delta stream completes without an
underflow error, the running total equals the sum of the per-name counts in
`current_users`; on a fully paired stream (all open counts zero) both end at
zero. -/
theorem running_total_eq_sum (events : List Event) (stf : SweepState)
    (rows : List OutputRow) (hd : deltasOK events)
    (h : sweepAux initState events = .ok (stf, rows)) :
    stf.session_count = sumValues stf.current_users ∧
    ((∀ name, openSessions events name = 0) →
      stf.current_users = [] ∧ stf.session_count = 0) := by
  have hwf0 : cuWF initState.current_users :=
    ⟨List.nodup_nil, by intro p hp; cases hp⟩
  obtain ⟨hwf, hcount, hsum⟩ :=
    sweepAux_master events initState stf rows hd hwf0 h
  have hsc : stf.session_count = sumValues stf.current_users := by
    have hz : stf.session_count - sumValues stf.current_users = 0 - 0 := by
      simpa [initState, sumValues] using hsum
    omega
  refine ⟨hsc, ?_⟩
  intro hall
  have hcu : stf.current_users = [] := by
    cases hcu : stf.current_users with
    | nil => rfl
    | cons p ps =>
      exfalso
      have hmem : p ∈ stf.current_users := by
        rw [hcu]; exact List.mem_cons_self p ps
      have hv := hwf.2 p hmem
      have hg : dictGet stf.current_users p.1 = some p.2 :=
        dictGet_of_mem_nodup stf.current_users hwf.1 p hmem
      have hcz := hcount p.1
      rw [hall p.1, dictCount, hg] at hcz
      simp [dictCount, dictGet, initState] at hcz
      omega
  refine ⟨hcu, ?_⟩
  rw [hsc, hcu]
  rfl

/-- C10 witness: a fully paired two-event stream ends at zero. -/
theorem running_total_eq_sum_witness :
    deltasOK [(dtA, 1, "u"), (dtB, -1, "u")] ∧
    sweepAux initState [(dtA, 1, "u"), (dtB, -1, "u")] =
      .ok (⟨0, 1, []⟩, [(dtA, 1, "u=1"), (dtB, 0, "")]) ∧
    ((0 : Int) = sumValues [] ∧
     ((∀ name, openSessions [(dtA, 1, "u"), (dtB, -1, "u")] name = 0) →
       ([] : List (String × Int)) = [] ∧ (0 : Int) = 0)) :=
  ⟨by unfold deltasOK; decide, rfl,
    (by
      exact running_total_eq_sum [(dtA, 1, "u"), (dtB, -1, "u")] ⟨0, 1, []⟩
        [(dtA, 1, "u=1"), (dtB, 0, "")] (by unfold deltasOK; decide) (by rfl))⟩

/-- C8 counterexample: a 2-field row (fewer than the 5-field schema) is not
tolerated — the year filter passes and the `user_id` access raises
`KeyError`, refuting the claim that every short row is processed without
error. -/
theorem short_row_not_tolerated :
    (["A", "B"] : List String).length < CSV_HEADERS.length ∧
    processRow fiso0 noUsers ["A", "B"] = .error (.keyError "user_id") :=
  ⟨by decide, rfl⟩

/-- C8 (amended): a row missing only the trailing unused fields — that is,
with at least the 3 fields the builder reads — never fails from the missing
fields: the only error it can produce is a timestamp parse error. -/
theorem short_row_only_parse_error (f : String → Option DateTime)
    (ud : String → Option String) (row : List String) (err : PyError)
    (h3 : 3 ≤ row.length) (h : processRow f ud row = .error err) :
    err = .parseError := by
  rcases row with - | ⟨r0, row⟩
  · simp at h3
  rcases row with - | ⟨r1, row⟩
  · simp at h3
  rcases row with - | ⟨r2, row⟩
  · simp at h3
  have hs : dictGet (row_dict (r0 :: r1 :: r2 :: row)) "start_timestamp" =
      some r0 := rfl
  have he : dictGet (row_dict (r0 :: r1 :: r2 :: row)) "end_timestamp" =
      some r1 := rfl
  have hu : dictGet (row_dict (r0 :: r1 :: r2 :: row)) "user_id" =
      some r2 := rfl
  simp only [processRow] at h
  rw [hs] at h
  dsimp only at h
  cases hps : f (stripOffset r0) with
  | none =>
    rw [hps] at h
    dsimp only at h
    exact (Except.error.inj h).symm
  | some sd =>
    rw [hps] at h
    dsimp only at h
    rw [he] at h
    dsimp only at h
    cases hpe : f (stripOffset r1) with
    | none =>
      rw [hpe] at h
      dsimp only at h
      exact (Except.error.inj h).symm
    | some ed =>
      rw [hpe] at h
      dsimp only at h
      by_cases hy : sd.year < 2022 ∨ ed.year < 2022
      · rw [if_pos hy] at h
        cases h
      · rw [if_neg hy, hu] at h
        dsimp only at h
        cases h

/-- C8 (amended) witness: a 3-field row with an unparsable end timestamp
fails only with a parse error. -/
theorem short_row_only_parse_error_witness :
    3 ≤ (["A", "x", "u"] : List String).length ∧
    processRow fiso0 noUsers ["A", "x", "u"] = .error .parseError ∧
    PyError.parseError = PyError.parseError :=
  ⟨by decide, rfl,
    short_row_only_parse_error fiso0 noUsers ["A", "x", "u"] .parseError
      (by decide) rfl⟩

end SessionCount
